import Mathlib

/-!
Shallow embedding of the pftrack core subsystems: the keyword-based
transaction classifier (`categorizer.py`) and the recurring-transaction
detector (`recurring_detector.py`), together with proofs of the frozen
specification claims.

Modelling conventions:
* Python `float` amounts and tolerances are modelled as exact rationals.
* Transaction dates are whole days (integers); `datetime` points derived
  from fractional day arithmetic (`predict_next`) are rationals, and
  `timedelta.days` truncation is `Int.floor`.
* Python dicts (ordered, unique keys) are association lists.
-/

/-- Character-list prefix test: embeds the prefix step of Python substring
containment (`needle in hay`). -/
def prefixMatch : List Char → List Char → Bool
  | [], _ => true
  | _ :: _, [] => false
  | a :: as, b :: bs => a == b && prefixMatch as bs

/-- `occursInChars needle hay`: `needle` occurs contiguously in `hay`. -/
def occursInChars (needle : List Char) : List Char → Bool
  | [] => needle.isEmpty
  | b :: bs => prefixMatch needle (b :: bs) || occursInChars needle bs

/-- Python substring containment `needle in hay` on strings. -/
def strOccursIn (needle hay : String) : Bool :=
  occursInChars needle.data hay.data

/-- Python `str.upper()`, character-wise (ASCII semantics). -/
def strUpper (s : String) : String :=
  ⟨s.data.map Char.toUpper⟩

/-- Python `str.split()` on a character list: split on whitespace runs,
dropping empty words.  `acc` holds the current word, reversed. -/
def wordsAux (acc : List Char) : List Char → List (List Char)
  | [] => if acc.isEmpty then [] else [acc.reverse]
  | c :: rest =>
    if c.isWhitespace then
      if acc.isEmpty then wordsAux [] rest else acc.reverse :: wordsAux [] rest
    else wordsAux (c :: acc) rest

/-- Python space-join of words on character lists. -/
def joinWords : List (List Char) → List Char
  | [] => []
  | [w] => w
  | w :: ws => w ++ (' ' :: joinWords ws)

/-- `transaction.py` data model, restricted to the fields the core logic
reads: date (whole days), description, signed amount, current category and
the mutable tag list. -/
structure Transaction where
  date : Int
  description : String
  amount : ℚ
  category : String := "Other"
  tags : List String := []
deriving DecidableEq

/-- `Transaction.is_expense`: amount strictly positive. -/
def Transaction.is_expense (t : Transaction) : Bool :=
  decide (0 < t.amount)

/-- A category rule as stored in the classifier's config dict.  Fields are
optional because `categorizer.py` reads them with `dict.get` defaults
(`keywords` → `[]`, `priority` → `999`, `require_negative` → `False`) and
the private-config merge distinguishes present from absent keys. -/
structure CatConfig where
  keywords : Option (List String) := none
  priority : Option Int := none
  require_negative : Option Bool := none
deriving DecidableEq

/-- The keyword list, defaulting to the empty list when absent. -/
def CatConfig.keywordsD (c : CatConfig) : List String :=
  c.keywords.getD []

/-- The priority, defaulting to 999 when absent (the sort key). -/
def CatConfig.priorityD (c : CatConfig) : Int :=
  c.priority.getD 999

/-- The require-negative flag, defaulting to false when absent. -/
def CatConfig.requireNegD (c : CatConfig) : Bool :=
  c.require_negative.getD false

/-- The special-case veto in `CategoryClassifier.categorize`: a `Travel`
match on keyword `CASH INTEREST` is skipped for negative amounts. -/
def vetoed (name kw : String) (t : Transaction) : Bool :=
  name == "Travel" && strUpper kw == "CASH INTEREST" && decide (t.amount < 0)

/-- One iteration of the inner keyword loop of `categorize`: the keyword
occurs (case-insensitively) in the description and the match is not vetoed. -/
def keywordHit (t : Transaction) (name kw : String) : Bool :=
  strOccursIn (strUpper kw) (strUpper t.description) && !(vetoed name kw t)

/-- Whether one iteration of the outer rule loop of `categorize` returns:
the rule is not the reserved fallback `"Other"`, its `require_negative`
precondition does not skip it, and some keyword scores an un-vetoed hit. -/
def ruleFires (t : Transaction) (nc : String × CatConfig) : Bool :=
  nc.1 != "Other" &&
    !(nc.2.requireNegD && decide (0 ≤ t.amount)) &&
    (nc.2.keywordsD).any (keywordHit t nc.1)

/-- The sort key comparison of `_sort_categories_by_priority`. -/
def catLe (a b : String × CatConfig) : Prop :=
  a.2.priorityD ≤ b.2.priorityD

instance : DecidableRel catLe := fun _ _ => Int.decLe _ _

instance : IsTotal (String × CatConfig) catLe := ⟨fun a b => Int.le_total a.2.priorityD b.2.priorityD⟩

instance : IsTrans (String × CatConfig) catLe := ⟨fun _ _ _ => Int.le_trans⟩

/-- `CategoryClassifier._sort_categories_by_priority`: stable sort of the
rule list ascending by `priority` (default 999). -/
def sortCategories (cats : List (String × CatConfig)) : List (String × CatConfig) :=
  cats.insertionSort catLe

/-- `CategoryClassifier.categorize`: first rule (in the already-sorted
list) that fires names the category; otherwise the fallback `"Other"`. -/
def categorize (cats : List (String × CatConfig)) (t : Transaction) : String :=
  match cats.find? (ruleFires t) with
  | some nc => nc.1
  | none => "Other"

/-- An auto-tagging rule: keyword list plus applicable-category list,
again with `dict.get`-style defaults. -/
structure TagConfig where
  keywords : Option (List String) := none
  categories : Option (List String) := none
deriving DecidableEq

/-- The trigger of one auto-tagging rule in `_apply_auto_tags`: some
keyword occurs in the (uppercased) description, or the transaction's
category is in the rule's category list. -/
def tagRuleFires (descUpper cat : String) (e : String × TagConfig) : Bool :=
  (e.2.keywords.getD []).any (fun kw => strOccursIn (strUpper kw) descUpper) ||
    (e.2.categories.getD []).contains cat

/-- Body of the loop in `CategoryClassifier._apply_auto_tags`, folded over
the rule list: append the tag when the rule triggers, unless the tag is
already present. -/
def applyTagsAux (descUpper cat : String) : List (String × TagConfig) → List String → List String
  | [], tags => tags
  | e :: rest, tags =>
    let tags' := if tagRuleFires descUpper cat e then
        (if tags.contains e.1 then tags else tags ++ [e.1])
      else tags
    applyTagsAux descUpper cat rest tags'

/-- `CategoryClassifier._apply_auto_tags`, as a function returning the
updated transaction (the Python method mutates `transaction.tags`). -/
def applyAutoTags (rules : List (String × TagConfig)) (t : Transaction) : Transaction :=
  { t with tags := applyTagsAux (strUpper t.description) t.category rules t.tags }

/-- In-place update of the first binding of `name` in an association list
(a Python dict entry assignment `self.categories[name] = v`). -/
def updateAssoc : List (String × CatConfig) → String → CatConfig → List (String × CatConfig)
  | [], _, _ => []
  | (k, v) :: rest, name, nv =>
    if k = name then (k, nv) :: rest else (k, v) :: updateAssoc rest name nv

/-- The merged rule produced by `_merge_config` for a category present in
both base and overlay: keyword sets are unioned, the overlay's priority
replaces the base's when explicitly given, and other overlay keys are
copied verbatim. -/
def mergedCfg (bc pc : CatConfig) : CatConfig :=
  { keywords := some ((bc.keywordsD).union (pc.keywordsD)),
    priority := if pc.priority.isSome then pc.priority else bc.priority,
    require_negative := if pc.require_negative.isSome then pc.require_negative else bc.require_negative }

/-- One iteration of the category loop in `CategoryClassifier._merge_config`:
merge an overlay entry into the current rule dict. -/
def mergeOne (base : List (String × CatConfig)) (e : String × CatConfig) : List (String × CatConfig) :=
  match base.lookup e.1 with
  | some bc => updateAssoc base e.1 (mergedCfg bc e.2)
  | none => base ++ [e]

/-- The category half of `CategoryClassifier._merge_config`: fold the
overlay's category dict into the base dict in insertion order. -/
def mergeConfig (base priv : List (String × CatConfig)) : List (String × CatConfig) :=
  priv.foldl mergeOne base

/-- The merged auto-tagging rule produced by `_merge_config` when a tag
name exists in both rule sets: keyword and category lists are unioned. -/
def mergedTagCfg (bc pc : TagConfig) : TagConfig :=
  { keywords := some ((bc.keywords.getD []).union (pc.keywords.getD [])),
    categories := some ((bc.categories.getD []).union (pc.categories.getD [])) }

/-- In-place update of the first binding of a tag name. -/
def updateTagAssoc : List (String × TagConfig) → String → TagConfig → List (String × TagConfig)
  | [], _, _ => []
  | (k, v) :: rest, name, nv =>
    if k = name then (k, nv) :: rest else (k, v) :: updateTagAssoc rest name nv

/-- One iteration of the auto-tagging loop in `_merge_config`. -/
def mergeTagOne (base : List (String × TagConfig)) (e : String × TagConfig) :
    List (String × TagConfig) :=
  match base.lookup e.1 with
  | some bc => updateTagAssoc base e.1 (mergedTagCfg bc e.2)
  | none => base ++ [e]

/-- The auto-tagging half of `CategoryClassifier._merge_config`. -/
def mergeTagging (base priv : List (String × TagConfig)) : List (String × TagConfig) :=
  priv.foldl mergeTagOne base

/-- Keyword list of the merged rule set for `name` (empty when absent). -/
def mergedKeywords (base priv : List (String × CatConfig)) (name : String) : List String :=
  match (mergeConfig base priv).lookup name with
  | some c => c.keywordsD
  | none => []

/-- The apostrophe character, for default keywords containing one. -/
def apos : String := (Char.ofNat 39).toString

/-- `CategoryClassifier._get_default_categories`. -/
def defaultCategories : List (String × CatConfig) :=
  [("Groceries", { keywords := some ["GROCERY", "CO-OP", "SUPERSTORE", "SAFEWAY", "WALMART", "COSTCO", "NO FRILLS"], priority := some 1 }),
   ("Restaurants", { keywords := some ["RESTAURANT", "MCDONALD", "STARBUKO", "PIZZA", "TIM HORTONS", "SUBWAY", "PEKING GARDEN", "SHAWARMA", "KOREAN VILLAGE"], priority := some 1 }),
   ("Gas/Transportation", { keywords := some ["GAS", "PETRO", "SHELL", "PARKING", "ESSO", "MOBIL"], priority := some 1 }),
   ("Utilities", { keywords := some ["TELUS", "ENMAX", "UTILITY BILL", "HYDRO", "ELECTRIC"], priority := some 2 }),
   ("Housing", { keywords := some ["MORTGAGE", "RENT", "INSURANCE INTACT", "PROPERTY TAX"], priority := some 1 }),
   ("Shopping", { keywords := some ["AMAZON", "CANADIAN TIRE", "WINNERS", "DOLLARAMA", "LONDON DRUGS", "GOODWILL", "PLATO" ++ apos ++ "S CLOSET", "FAIR" ++ apos ++ "S FAIR"], priority := some 2 }),
   ("Entertainment", { keywords := some ["AMAZON CHANNELS", "ONEBOOKSHEL", "NETFLIX", "SPOTIFY"], priority := some 1 }),
   ("Income", { keywords := some ["PAYROLL", "DEPOSIT", "INTEREST"], priority := some 1, require_negative := some true }),
   ("Transfers", { keywords := some ["TRANSFER", "BILL PAYMENT"], priority := some 3 }),
   ("Other", { keywords := some [], priority := some 999 })]

/-- Outcome of reading and JSON-parsing a rule-source file, supplied as
input to the loader (the JSON parser itself is external library code):
either the text was not parseable, or it parsed to a dict with an optional
`categories` key and an optional `auto_tagging` key. -/
inductive ConfigSource where
  | invalidJson : String → ConfigSource
  | parsed : Option (List (String × CatConfig)) → Option (List (String × TagConfig)) → ConfigSource
deriving DecidableEq

/-- `CategoryClassifier._load_config`: a JSON parse failure or a missing
mandatory `categories` key raises `ValueError` (modelled as `Except.error`);
otherwise the parsed config is returned. -/
def load_config : ConfigSource → Except String (List (String × CatConfig) × List (String × TagConfig))
  | .invalidJson e => .error ("Invalid JSON in config file: " ++ e)
  | .parsed none _ => .error "Config file must contain a categories key"
  | .parsed (some cats) tagging => .ok (cats, tagging.getD [])

/-- A built classifier: the priority-sorted rule list plus tagging rules. -/
structure Classifier where
  categories : List (String × CatConfig)
  auto_tagging_rules : List (String × TagConfig)
deriving DecidableEq

/-- `CategoryClassifier.__init__`: `none` stands for "no config path was
supplied or the file does not exist".  An explicit existing public config
is loaded (errors propagate — no fallback to defaults), an existing private
config is merged into it, and the rules are sorted by priority.  Without a
public config the built-in defaults are used and the private config is not
consulted. -/
def initClassifier (pub priv : Option ConfigSource) : Except String Classifier :=
  match pub with
  | none => .ok { categories := sortCategories defaultCategories, auto_tagging_rules := [] }
  | some src => do
    let (cats, tagging) ← load_config src
    match priv with
    | none => pure { categories := sortCategories cats, auto_tagging_rules := tagging }
    | some psrc => do
      let (pcats, ptagging) ← load_config psrc
      pure { categories := sortCategories (mergeConfig cats pcats),
             auto_tagging_rules := mergeTagging tagging ptagging }

/-- `recurring_detector.py`'s `RecurringTransaction` pattern record. -/
structure RecurringTransaction where
  merchant : String
  average_amount : ℚ
  interval_days : ℚ
  last_date : Int
  count : Nat
deriving DecidableEq

/-- `RecurringTransaction.predict_next`: last date plus the (possibly
fractional) mean interval, as a point on the rational day line. -/
def RecurringTransaction.predict_next (r : RecurringTransaction) : ℚ :=
  (r.last_date : ℚ) + r.interval_days

/-- `RecurringTransaction.is_due`: the current date has reached the
predicted next date. -/
def RecurringTransaction.is_due (r : RecurringTransaction) (current : ℚ) : Bool :=
  decide (r.predict_next ≤ current)

/-- Merchant normalization in `detect_recurring`: uppercase, split on
whitespace runs, rejoin with single spaces. -/
def normalizeMerchant (s : String) : String :=
  ⟨joinWords (wordsAux [] (strUpper s).data)⟩

/-- The group that `detect_recurring`'s `defaultdict` builds for merchant
key `m`: the expense transactions with that normalized key, in input order. -/
def groupOf (ts : List Transaction) (m : String) : List Transaction :=
  ts.filter (fun t => t.is_expense && (normalizeMerchant t.description == m))

/-- First-occurrence deduplication (insertion order of `defaultdict` keys),
with an accumulator of already-seen keys. -/
def dedupKeysAux (seen : List String) : List String → List String
  | [] => []
  | k :: rest =>
    if k ∈ seen then dedupKeysAux seen rest else k :: dedupKeysAux (k :: seen) rest

/-- The merchant keys of `detect_recurring`'s groups, in insertion order. -/
def merchantKeys (ts : List Transaction) : List String :=
  dedupKeysAux [] ((ts.filter (fun t => t.is_expense)).map (fun t => normalizeMerchant t.description))

/-- The sort key comparison of the in-group date sort. -/
def dateLe (a b : Transaction) : Prop :=
  a.date ≤ b.date

instance : DecidableRel dateLe := fun _ _ => Int.decLe _ _

instance : IsTotal Transaction dateLe := ⟨fun a b => Int.le_total a.date b.date⟩

instance : IsTrans Transaction dateLe := ⟨fun _ _ _ => Int.le_trans⟩

/-- `transactions.sort(key=lambda t: t.date)`. -/
def sortByDate (g : List Transaction) : List Transaction :=
  g.insertionSort dateLe

/-- Day gaps between consecutive transactions of a (sorted) group. -/
def dateGaps : List Transaction → List Int
  | [] => []
  | [_] => []
  | a :: b :: rest => (b.date - a.date) :: dateGaps (b :: rest)

/-- `max(l)` over a nonempty list (0 on the unreachable empty list). -/
def listMax [Max α] [Inhabited α] : List α → α
  | [] => default
  | a :: rest => rest.foldl max a

/-- `min(l)` over a nonempty list (0 on the unreachable empty list). -/
def listMin [Min α] [Inhabited α] : List α → α
  | [] => default
  | a :: rest => rest.foldl min a

/-- The amount-variance rejection test of `detect_recurring`: variance is
`max/min` when `min > 0` and `+inf` otherwise, and the group is rejected
when it exceeds `1 + amount_tolerance`. -/
def amountVarReject (amounts : List ℚ) (tol : ℚ) : Bool :=
  if 0 < listMin amounts then decide (1 + tol < listMax amounts / listMin amounts) else true

/-- The interval-variance rejection test of `detect_recurring`: variance is
`max/min` when `min > 0` and `+inf` otherwise, rejected when above `2.0`. -/
def intervalVarReject (intervals : List Int) : Bool :=
  if 0 < listMin intervals then
    decide ((2 : ℚ) < ((listMax intervals : ℤ) : ℚ) / ((listMin intervals : ℤ) : ℚ))
  else true

/-- `transactions[-1].date` after the in-group sort. -/
def lastDate (g : List Transaction) : Int :=
  match g.getLast? with
  | some t => t.date
  | none => 0

/-- `amounts = [abs(t.amount) for t in sorted(group)]`. -/
def groupAmounts (g : List Transaction) : List ℚ :=
  (sortByDate g).map (fun t => |t.amount|)

/-- The positive day gaps between consecutive date-sorted transactions
(same-day pairs are dropped, as in the code). -/
def groupIntervals (g : List Transaction) : List Int :=
  (dateGaps (sortByDate g)).filter (fun i => decide (0 < i))

/-- The per-group body of `detect_recurring`'s main loop: occurrence
check, date sort, mean amount, amount-variance gate, positive day gaps,
mean interval, interval-variance gate, then the emitted pattern. -/
def processGroup (m : String) (g : List Transaction) (min_occ : Nat) (tol : ℚ) :
    Option RecurringTransaction :=
  if g.length < min_occ then none
  else if amountVarReject (groupAmounts g) tol then none
  else if (groupIntervals g).isEmpty then none
  else if intervalVarReject (groupIntervals g) then none
  else some { merchant := m,
              average_amount := (groupAmounts g).sum / ((groupAmounts g).length : ℚ),
              interval_days := (((groupIntervals g).sum : ℤ) : ℚ) / ((groupIntervals g).length : ℚ),
              last_date := lastDate (sortByDate g),
              count := g.length }

/-- `RecurringDetector.detect_recurring`: one candidate pattern per
merchant group, in key-insertion order, keeping the survivors. -/
def detect_recurring (ts : List Transaction) (min_occ : Nat) (tol : ℚ) :
    List RecurringTransaction :=
  (merchantKeys ts).filterMap (fun m => processGroup m (groupOf ts m) min_occ tol)

/-- The per-transaction match test inside `find_missing`: an expense whose
description contains the pattern's merchant (case-insensitively), whose
date is within half a mean interval of the predicted date (day difference
truncated as `timedelta.days` does), and whose absolute amount is within
20% relative difference of the pattern's mean. -/
def txnMatchesPattern (r : RecurringTransaction) (t : Transaction) : Bool :=
  t.is_expense &&
    (strOccursIn (strUpper r.merchant) (strUpper t.description) &&
      (decide ((|⌊(t.date : ℚ) - r.predict_next⌋| : ℚ) ≤ r.interval_days * (1/2)) &&
        decide (|(|t.amount|) - r.average_amount| / r.average_amount ≤ 1/5)))

/-- `RecurringDetector.find_missing`: the due patterns for which no
transaction in the history matches. -/
def find_missing (ts : List Transaction) (rs : List RecurringTransaction) (current : ℚ) :
    List RecurringTransaction :=
  rs.filter (fun r => r.is_due current && !(ts.any (txnMatchesPattern r)))

/-- An arithmetic progression of dates: `n` terms from `d` with step `g`. -/
def arithProg (d g : Int) : Nat → List Int
  | 0 => []
  | n + 1 => d :: arithProg (d + g) g n

/-! ### General helper lemmas -/

theorem find_first_rel {α : Type} {R : α → α → Prop} {p : α → Bool} :
    ∀ {l : List α} {x y : α}, l.Pairwise R → l.find? p = some x → y ∈ l →
      p y = true → x = y ∨ R x y := by
  intro l
  induction l with
  | nil => intro x y _ h; simp at h
  | cons a t ih =>
    intro x y hpw hfind hmem hpy
    rw [List.pairwise_cons] at hpw
    by_cases hpa : p a
    · rw [List.find?_cons_of_pos _ hpa] at hfind
      obtain rfl : a = x := Option.some.inj hfind
      rcases List.mem_cons.mp hmem with rfl | hmem'
      · exact Or.inl rfl
      · exact Or.inr (hpw.1 y hmem')
    · rw [List.find?_cons_of_neg _ hpa] at hfind
      rcases List.mem_cons.mp hmem with rfl | hmem'
      · exact absurd hpy hpa
      · exact ih hpw.2 hfind hmem' hpy

theorem eq_snd_of_fst_nodup {α β : Type} {l : List (α × β)} {a : α} {b c : β}
    (hnd : (l.map Prod.fst).Nodup) (h1 : (a, b) ∈ l) (h2 : (a, c) ∈ l) : b = c := by
  induction l with
  | nil => simp at h1
  | cons x t ih =>
    simp only [List.map_cons, List.nodup_cons] at hnd
    rcases List.mem_cons.mp h1 with heq1 | h1'
    · rcases List.mem_cons.mp h2 with heq2 | h2'
      · rw [← heq1] at heq2
        exact (Prod.mk.injEq a b a c ▸ congrArg id heq2.symm).2
      · exfalso
        apply hnd.1
        rw [← heq1]
        exact List.mem_map.mpr ⟨(a, c), h2', rfl⟩
    · rcases List.mem_cons.mp h2 with heq2 | h2'
      · exfalso
        apply hnd.1
        rw [← heq2]
        exact List.mem_map.mpr ⟨(a, b), h1', rfl⟩
      · exact ih hnd.2 h1' h2'

theorem ruleFires_ne_other {t : Transaction} {nc : String × CatConfig}
    (h : ruleFires t nc = true) : nc.1 ≠ "Other" := by
  simp only [ruleFires, Bool.and_eq_true, bne_iff_ne, ne_eq] at h
  exact h.1.1

theorem ruleFires_not_skipped {t : Transaction} {nc : String × CatConfig}
    (h : ruleFires t nc = true) (hr : nc.2.requireNegD = true) : ¬ 0 ≤ t.amount := by
  simp only [ruleFires, Bool.and_eq_true, Bool.not_eq_eq_eq_not, Bool.not_true,
    Bool.and_eq_false_iff, hr] at h
  rcases h.1.2 with h' | h'
  · simp at h'
  · simpa using h'

/-! ### C1: priority invariant -/

/-- C1 (amended): for rules R1, R2 of a rule set with `priorityD R1 <
priorityD R2`, both firing on a transaction (keyword matched, not skipped
by `require_negative`, not vetoed, not the fallback) and category names
unique as in a dict, `categorize` never returns R2's name; and it returns
R1's name as soon as every other firing rule has priority strictly above
R1's. -/
theorem categorize_priority_invariant (cats : List (String × CatConfig)) (t : Transaction)
    (n1 n2 : String) (r1 r2 : CatConfig)
    (h1 : (n1, r1) ∈ cats) (h2 : (n2, r2) ∈ cats)
    (hnd : (cats.map Prod.fst).Nodup)
    (hp : r1.priorityD < r2.priorityD)
    (hf1 : ruleFires t (n1, r1) = true) (hf2 : ruleFires t (n2, r2) = true) :
    categorize (sortCategories cats) t ≠ n2 ∧
      ((∀ nc ∈ cats, ruleFires t nc = true → nc ≠ (n1, r1) → r1.priorityD < nc.2.priorityD) →
        categorize (sortCategories cats) t = n1) := by
  have hperm : List.Perm (sortCategories cats) cats := List.perm_insertionSort catLe cats
  have hsort : List.Pairwise catLe (sortCategories cats) := List.sorted_insertionSort catLe cats
  have hmem1 : (n1, r1) ∈ sortCategories cats := hperm.mem_iff.mpr h1
  constructor
  · cases hfind : (sortCategories cats).find? (ruleFires t) with
    | none =>
      have hres : categorize (sortCategories cats) t = "Other" := by
        unfold categorize; rw [hfind]
      rw [hres]
      intro hOther
      exact ruleFires_ne_other hf2 hOther.symm
    | some nc =>
      have hres : categorize (sortCategories cats) t = nc.1 := by
        unfold categorize; rw [hfind]
      rw [hres]
      intro heq
      have hmem : nc ∈ cats := hperm.mem_iff.mp (List.mem_of_find?_eq_some hfind)
      have hpair : (n2, nc.2) ∈ cats := by
        rw [← heq, Prod.mk.eta]; exact hmem
      have hc : nc.2 = r2 := eq_snd_of_fst_nodup hnd hpair h2
      rcases find_first_rel hsort hfind hmem1 hf1 with heq' | hle
      · have h12 : r1 = r2 := by rw [heq'] at hc; exact hc
        rw [h12] at hp
        exact absurd hp (lt_irrefl _)
      · have hle' : nc.2.priorityD ≤ r1.priorityD := hle
        rw [hc] at hle'
        omega
  · intro hmin
    cases hfind : (sortCategories cats).find? (ruleFires t) with
    | none =>
      exact absurd hf1 (List.find?_eq_none.mp hfind (n1, r1) hmem1)
    | some nc =>
      have hres : categorize (sortCategories cats) t = nc.1 := by
        unfold categorize; rw [hfind]
      rw [hres]
      have hfires : ruleFires t nc = true := List.find?_some hfind
      have hmemc : nc ∈ cats := hperm.mem_iff.mp (List.mem_of_find?_eq_some hfind)
      by_cases hne : nc = (n1, r1)
      · rw [hne]
      · exfalso
        have hgt : r1.priorityD < nc.2.priorityD := hmin nc hmemc hfires hne
        rcases find_first_rel hsort hfind hmem1 hf1 with heq' | hle
        · exact hne heq'
        · have hle' : nc.2.priorityD ≤ r1.priorityD := hle
          omega

/-- A one-keyword rule matching `"X"` at a given priority. -/
def cfgX (p : Int) : CatConfig :=
  { keywords := some ["X"], priority := some p }

/-- Three rules with distinct priorities, all matching keyword `"X"`. -/
def c1ExCats : List (String × CatConfig) :=
  [("A", cfgX 1), ("B", cfgX 2), ("C", cfgX 3)]

/-- A transaction whose description matches all three rules of `c1ExCats`. -/
def c1ExTx : Transaction :=
  { date := 0, description := "X PURCHASE", amount := 5 }

/-- C1 as literally stated is false: with three rules A(1), B(2), C(3) all
matching, the pair (R1, R2) = (B, C) satisfies every hypothesis of the
claim, yet `categorize` returns "A", not B's category name. -/
theorem categorize_priority_claim_counterexample :
    ¬ (∀ (cats : List (String × CatConfig)) (t : Transaction) (n1 n2 : String)
        (r1 r2 : CatConfig), (n1, r1) ∈ cats → (n2, r2) ∈ cats →
        (cats.map Prod.fst).Nodup → r1.priorityD < r2.priorityD →
        ruleFires t (n1, r1) = true → ruleFires t (n2, r2) = true →
        categorize (sortCategories cats) t = n1 ∧
          categorize (sortCategories cats) t ≠ n2) := by
  intro h
  have hinst := h c1ExCats c1ExTx "B" "C" (cfgX 2) (cfgX 3)
    (by decide) (by decide) (by decide) (by decide) (by decide) (by decide)
  exact (by decide : ¬ categorize (sortCategories c1ExCats) c1ExTx = "B") hinst.1

/-- Witness for the amended C1: on `c1ExCats` with (R1, R2) = (A, C), the
classifier avoids "C" and, A having the strictly smallest priority among
firing rules, returns "A". -/
theorem categorize_priority_invariant_witness :
    categorize (sortCategories c1ExCats) c1ExTx ≠ "C" ∧
      categorize (sortCategories c1ExCats) c1ExTx = "A" := by
  have h := categorize_priority_invariant c1ExCats c1ExTx "A" "C" (cfgX 1) (cfgX 3)
    (by decide) (by decide) (by decide) (by decide) (by decide) (by decide)
  exact ⟨h.1, h.2 (by decide)⟩

/-! ### C2: fallback invariant -/

/-- C2: if no non-fallback rule fires on the transaction (no keyword
matches, or every matching rule is skipped by `require_negative` or
vetoed), `categorize` returns the fallback name `"Other"`, for rule sets
of any size; the fallback rule itself never participates in matching. -/
theorem categorize_fallback (cats : List (String × CatConfig)) (t : Transaction)
    (h : ∀ nc ∈ cats, nc.1 ≠ "Other" → ruleFires t nc = false) :
    categorize (sortCategories cats) t = "Other" := by
  have hperm : List.Perm (sortCategories cats) cats := List.perm_insertionSort catLe cats
  have hnone : (sortCategories cats).find? (ruleFires t) = none := by
    rw [List.find?_eq_none]
    intro nc hmem
    by_cases hother : nc.1 = "Other"
    · intro hfi
      exact (ruleFires_ne_other hfi) hother
    · have hfalse := h nc (hperm.mem_iff.mp hmem) hother
      simp [hfalse]
  unfold categorize
  rw [hnone]

/-- A two-rule set where only "Groceries" carries keywords. -/
def c2ExCats : List (String × CatConfig) :=
  [("Groceries", { keywords := some ["WALMART"], priority := some 1 }),
   ("Other", { keywords := some [], priority := some 999 })]

/-- A transaction matching no keyword of `c2ExCats`. -/
def c2ExTx : Transaction :=
  { date := 0, description := "NETFLIX", amount := 12 }

/-- Witness for C2 at a concrete rule set and transaction. -/
theorem categorize_fallback_witness :
    categorize (sortCategories c2ExCats) c2ExTx = "Other" :=
  categorize_fallback c2ExCats c2ExTx (by decide)

/-! ### C4: require-negative precondition -/

/-- The Income rule of the concrete C4 scenario. -/
def c4IncomeCfg : CatConfig :=
  { keywords := some ["PAYROLL"], priority := some 1, require_negative := some true }

/-- Rule set `{Income: [PAYROLL, p1, require_negative], Other: [p999]}`. -/
def c4ExCats : List (String × CatConfig) :=
  [("Income", c4IncomeCfg), ("Other", { keywords := some [], priority := some 999 })]

/-- `"PAYROLL DEPOSIT"` with positive amount +500.0. -/
def c4ExTx : Transaction :=
  { date := 0, description := "PAYROLL DEPOSIT", amount := 500 }

/-- C4: a rule with `require_negative` is skipped entirely for
transactions with amount ≥ 0 — `categorize` never returns its name (for
dict-like rule sets and a non-fallback rule) even when a keyword occurs in
the description; in particular the concrete PAYROLL scenario classifies
as "Other". -/
theorem categorize_require_negative_skip (cats : List (String × CatConfig)) (t : Transaction)
    (n : String) (c : CatConfig)
    (hmem : (n, c) ∈ cats) (hneg : c.requireNegD = true) (hamt : 0 ≤ t.amount)
    (hn : n ≠ "Other") (hnd : (cats.map Prod.fst).Nodup) :
    categorize (sortCategories cats) t ≠ n ∧
      categorize (sortCategories c4ExCats) c4ExTx = "Other" := by
  constructor
  · cases hfind : (sortCategories cats).find? (ruleFires t) with
    | none =>
      have hres : categorize (sortCategories cats) t = "Other" := by
        unfold categorize; rw [hfind]
      rw [hres]
      exact fun hcontra => hn hcontra.symm
    | some nc =>
      have hres : categorize (sortCategories cats) t = nc.1 := by
        unfold categorize; rw [hfind]
      rw [hres]
      intro heq
      have hperm : List.Perm (sortCategories cats) cats := List.perm_insertionSort catLe cats
      have hmemc : nc ∈ cats := hperm.mem_iff.mp (List.mem_of_find?_eq_some hfind)
      have hpair : (n, nc.2) ∈ cats := by
        rw [← heq, Prod.mk.eta]; exact hmemc
      have hc : nc.2 = c := eq_snd_of_fst_nodup hnd hpair hmem
      have hfires : ruleFires t nc = true := List.find?_some hfind
      exact ruleFires_not_skipped hfires (by rw [hc]; exact hneg) hamt
  · decide

/-- Witness for C4: the concrete scenario, via the theorem itself. -/
theorem categorize_require_negative_skip_witness :
    categorize (sortCategories c4ExCats) c4ExTx ≠ "Income" ∧
      categorize (sortCategories c4ExCats) c4ExTx = "Other" :=
  categorize_require_negative_skip c4ExCats c4ExTx "Income" c4IncomeCfg
    (by decide) (by decide) (by decide) (by decide) (by decide)

/-! ### C3: merge union property -/

theorem lookup_updateAssoc_self {l : List (String × CatConfig)} {k : String} {v bc : CatConfig}
    (h : l.lookup k = some bc) : (updateAssoc l k v).lookup k = some v := by
  induction l with
  | nil => simp at h
  | cons e rest ih =>
    obtain ⟨k0, v0⟩ := e
    unfold updateAssoc
    by_cases hk : k0 = k
    · simp [List.lookup_cons, hk]
    · rw [if_neg hk]
      rw [List.lookup_cons] at h ⊢
      have hne : (k == k0) = false := by
        simp only [beq_eq_false_iff_ne, ne_eq]
        exact fun hc => hk hc.symm
      rw [hne] at h ⊢
      exact ih h

theorem lookup_updateAssoc_other {l : List (String × CatConfig)} {k k' : String} {v : CatConfig}
    (h : k' ≠ k) : (updateAssoc l k v).lookup k' = l.lookup k' := by
  induction l with
  | nil => rfl
  | cons e rest ih =>
    obtain ⟨k0, v0⟩ := e
    unfold updateAssoc
    by_cases hk : k0 = k
    · subst hk
      have hne : (k' == k0) = false := by simp [h]
      simp [List.lookup_cons, hne]
    · rw [if_neg hk]
      rw [List.lookup_cons, List.lookup_cons]
      by_cases hk' : k' == k0
      · rw [hk']
      · simp only [Bool.not_eq_true] at hk'
        rw [hk']
        exact ih

theorem lookup_append_some {l1 l2 : List (String × CatConfig)} {k : String} {v : CatConfig}
    (h : l1.lookup k = some v) : (l1 ++ l2).lookup k = some v := by
  induction l1 with
  | nil => simp at h
  | cons e rest ih =>
    obtain ⟨k0, v0⟩ := e
    rw [List.lookup_cons] at h
    show List.lookup k ((k0, v0) :: (rest ++ l2)) = some v
    rw [List.lookup_cons]
    by_cases hk : k == k0
    · rw [hk] at h ⊢; exact h
    · simp only [Bool.not_eq_true] at hk
      rw [hk] at h ⊢
      exact ih h

theorem lookup_append_none {l1 l2 : List (String × CatConfig)} {k : String}
    (h : l1.lookup k = none) : (l1 ++ l2).lookup k = l2.lookup k := by
  induction l1 with
  | nil => rfl
  | cons e rest ih =>
    obtain ⟨k0, v0⟩ := e
    rw [List.lookup_cons] at h
    show List.lookup k ((k0, v0) :: (rest ++ l2)) = List.lookup k l2
    rw [List.lookup_cons]
    by_cases hk : k == k0
    · rw [hk] at h; simp at h
    · simp only [Bool.not_eq_true] at hk
      rw [hk] at h ⊢
      exact ih h

theorem mergeConfig_cons (base : List (String × CatConfig)) (e : String × CatConfig)
    (rest : List (String × CatConfig)) :
    mergeConfig base (e :: rest) = mergeConfig (mergeOne base e) rest := rfl

theorem mergeOne_lookup_superset {base : List (String × CatConfig)} {e : String × CatConfig}
    {name : String} {bc : CatConfig} (h : base.lookup name = some bc) :
    ∃ bc1, (mergeOne base e).lookup name = some bc1 ∧
      ∀ kw ∈ bc.keywordsD, kw ∈ bc1.keywordsD := by
  unfold mergeOne
  by_cases he : e.1 = name
  · rw [he, h]
    refine ⟨mergedCfg bc e.2, lookup_updateAssoc_self h, fun kw hkw => ?_⟩
    simp only [mergedCfg, CatConfig.keywordsD, Option.getD_some]
    exact List.mem_union_iff.mpr (Or.inl hkw)
  · cases hl : base.lookup e.1 with
    | some bc0 =>
      exact ⟨bc, by rw [lookup_updateAssoc_other (fun hc => he hc.symm)]; exact h,
        fun kw hkw => hkw⟩
    | none =>
      exact ⟨bc, lookup_append_some h, fun kw hkw => hkw⟩

theorem mergeOne_lookup_other {base : List (String × CatConfig)} {e : String × CatConfig}
    {name : String} (hne : e.1 ≠ name) :
    (mergeOne base e).lookup name = base.lookup name := by
  unfold mergeOne
  cases hl : base.lookup e.1 with
  | some bc0 => exact lookup_updateAssoc_other (fun hc => hne hc.symm)
  | none =>
    cases hb : base.lookup name with
    | some v => exact lookup_append_some hb
    | none =>
      rw [lookup_append_none hb, List.lookup_cons]
      have : (name == e.1) = false := by
        simp only [beq_eq_false_iff_ne, ne_eq]
        exact fun hc => hne hc.symm
      rw [this]
      rfl

theorem mergeConfig_keywords_superset :
    ∀ (priv base : List (String × CatConfig)) (name : String) (bc : CatConfig),
      base.lookup name = some bc →
      ∃ mc, (mergeConfig base priv).lookup name = some mc ∧
        ∀ kw ∈ bc.keywordsD, kw ∈ mc.keywordsD := by
  intro priv
  induction priv with
  | nil => exact fun base name bc h => ⟨bc, h, fun kw hkw => hkw⟩
  | cons e rest ih =>
    intro base name bc h
    obtain ⟨bc1, hbc1, hsup1⟩ := mergeOne_lookup_superset (e := e) h
    obtain ⟨mc, hmc, hsup2⟩ := ih (mergeOne base e) name bc1 hbc1
    exact ⟨mc, hmc, fun kw hkw => hsup2 kw (hsup1 kw hkw)⟩

theorem mergeConfig_lookup_no_key :
    ∀ (priv base : List (String × CatConfig)) (name : String),
      (∀ e ∈ priv, e.1 ≠ name) → (mergeConfig base priv).lookup name = base.lookup name := by
  intro priv
  induction priv with
  | nil => exact fun base name _ => rfl
  | cons e rest ih =>
    intro base name hno
    have hstep : (mergeOne base e).lookup name = base.lookup name :=
      mergeOne_lookup_other (hno e (List.mem_cons_self e rest))
    have : (mergeConfig (mergeOne base e) rest).lookup name = (mergeOne base e).lookup name :=
      ih (mergeOne base e) name (fun e' he' => hno e' (List.mem_cons_of_mem e he'))
    exact this.trans hstep

theorem mergeConfig_insert_new :
    ∀ (priv base : List (String × CatConfig)) (name : String) (pc : CatConfig),
      base.lookup name = none → (priv.map Prod.fst).Nodup → (name, pc) ∈ priv →
      (mergeConfig base priv).lookup name = some pc := by
  intro priv
  induction priv with
  | nil => intro base name pc _ _ hmem; simp at hmem
  | cons e rest ih =>
    intro base name pc hnone hnd hmem
    simp only [List.map_cons, List.nodup_cons] at hnd
    rcases List.mem_cons.mp hmem with heq | hmem'
    · subst heq
      have hins : mergeOne base (name, pc) = base ++ [(name, pc)] := by
        unfold mergeOne; rw [hnone]
      have hrest : ∀ e' ∈ rest, e'.1 ≠ name := by
        intro e' he' hc
        exact hnd.1 (hc ▸ List.mem_map.mpr ⟨e', he', rfl⟩)
      rw [mergeConfig_cons,
        mergeConfig_lookup_no_key rest (mergeOne base (name, pc)) name hrest,
        hins, lookup_append_none hnone, List.lookup_cons]
      simp
    · have hne : e.1 ≠ name := by
        intro hc
        exact hnd.1 (hc ▸ List.mem_map.mpr ⟨(name, pc), hmem', rfl⟩)
      have hstep : (mergeOne base e).lookup name = none :=
        (mergeOne_lookup_other hne).trans hnone
      rw [mergeConfig_cons]
      exact ih (mergeOne base e) name pc hstep hnd.2 hmem'

/-- C3: merging a private overlay never removes a base keyword — for any
category present in the base, every base keyword survives into the merged
category's keyword list (whether or not the overlay also overrides
priority); and an overlay category absent from the base is inserted as a
new rule with the overlay's own config. -/
theorem mergeConfig_union_property (base priv : List (String × CatConfig)) (name : String)
    (bc pc : CatConfig) (kw : String) :
    (base.lookup name = some bc → kw ∈ bc.keywordsD → kw ∈ mergedKeywords base priv name) ∧
      (base.lookup name = none → (priv.map Prod.fst).Nodup → (name, pc) ∈ priv →
        (mergeConfig base priv).lookup name = some pc) := by
  constructor
  · intro h hkw
    obtain ⟨mc, hmc, hsup⟩ := mergeConfig_keywords_superset priv base name bc h
    unfold mergedKeywords
    rw [hmc]
    exact hsup kw hkw
  · exact mergeConfig_insert_new priv base name pc

/-- Base rule set for the C3 witness. -/
def c3Base : List (String × CatConfig) :=
  [("Groceries", { keywords := some ["WALMART"], priority := some 1 })]

/-- Overlay rule set for the C3 witness: extends Groceries (also touching
its priority) and introduces a new category. -/
def c3Priv : List (String × CatConfig) :=
  [("Groceries", { keywords := some ["FARM BOY"], priority := some 2 }),
   ("Clubs", { keywords := some ["GYM"], priority := some 1 })]

/-- Witness for C3: the base keyword survives the merge and the
overlay-only category is inserted verbatim. -/
theorem mergeConfig_union_property_witness :
    "WALMART" ∈ mergedKeywords c3Base c3Priv "Groceries" ∧
      (mergeConfig c3Base c3Priv).lookup "Clubs" =
        some { keywords := some ["GYM"], priority := some 1 } :=
  ⟨(mergeConfig_union_property c3Base c3Priv "Groceries"
      { keywords := some ["WALMART"], priority := some 1 } {} "WALMART").1
      (by decide) (by decide),
   (mergeConfig_union_property c3Base c3Priv "Clubs" {}
      { keywords := some ["GYM"], priority := some 1 } "X").2
      (by decide) (by decide) (by decide)⟩

/-! ### C8: idempotence of auto-tagging -/

theorem applyTagsAux_extends (d c : String) :
    ∀ (rules : List (String × TagConfig)) (tags : List String),
      ∃ extra, applyTagsAux d c rules tags = tags ++ extra := by
  intro rules
  induction rules with
  | nil => exact fun tags => ⟨[], (List.append_nil tags).symm⟩
  | cons e rest ih =>
    intro tags
    unfold applyTagsAux
    by_cases hf : tagRuleFires d c e
    · rw [if_pos hf]
      by_cases hc : tags.contains e.1
      · rw [if_pos hc]; exact ih tags
      · rw [if_neg hc]
        obtain ⟨extra, hextra⟩ := ih (tags ++ [e.1])
        exact ⟨[e.1] ++ extra, by rw [hextra, List.append_assoc]⟩
    · rw [if_neg hf]; exact ih tags

theorem applyTagsAux_fixed (d c : String) :
    ∀ (rules : List (String × TagConfig)) (tags : List String),
      (∀ e ∈ rules, tagRuleFires d c e = true → tags.contains e.1 = true) →
      applyTagsAux d c rules tags = tags := by
  intro rules
  induction rules with
  | nil => exact fun tags _ => rfl
  | cons e rest ih =>
    intro tags h
    unfold applyTagsAux
    by_cases hf : tagRuleFires d c e
    · rw [if_pos hf, if_pos (h e (List.mem_cons_self e rest) hf)]
      exact ih tags (fun e' he' => h e' (List.mem_cons_of_mem e he'))
    · rw [if_neg hf]
      exact ih tags (fun e' he' => h e' (List.mem_cons_of_mem e he'))

theorem applyTagsAux_mem (d c : String) :
    ∀ (rules : List (String × TagConfig)) (tags : List String) (e : String × TagConfig),
      e ∈ rules → tagRuleFires d c e = true →
      e.1 ∈ applyTagsAux d c rules tags := by
  intro rules
  induction rules with
  | nil => intro tags e hmem; simp at hmem
  | cons e0 rest ih =>
    intro tags e hmem hf
    unfold applyTagsAux
    rcases List.mem_cons.mp hmem with heq | hmem'
    · subst heq
      rw [if_pos hf]
      obtain ⟨extra, hextra⟩ := applyTagsAux_extends d c rest
        (if tags.contains e.1 then tags else tags ++ [e.1])
      rw [hextra]
      apply List.mem_append_left
      by_cases hc : tags.contains e.1
      · rw [if_pos hc]; exact List.elem_iff.mp hc
      · rw [if_neg hc]
        exact List.mem_append_right tags (List.mem_singleton.mpr rfl)
    · exact ih _ e hmem' hf

theorem applyTagsAux_nodup (d c : String) :
    ∀ (rules : List (String × TagConfig)) (tags : List String),
      tags.Nodup → (applyTagsAux d c rules tags).Nodup := by
  intro rules
  induction rules with
  | nil => exact fun tags h => h
  | cons e rest ih =>
    intro tags h
    unfold applyTagsAux
    by_cases hf : tagRuleFires d c e
    · rw [if_pos hf]
      by_cases hc : tags.contains e.1
      · rw [if_pos hc]; exact ih tags h
      · rw [if_neg hc]
        apply ih
        have hnotmem : e.1 ∉ tags := fun hm => hc (List.elem_iff.mpr hm)
        exact List.nodup_append.mpr ⟨h, List.nodup_singleton e.1,
          fun x hx hx' => hnotmem ((List.mem_singleton.mp hx') ▸ hx)⟩
    · rw [if_neg hf]; exact ih tags h

/-- C8: auto-tagging is idempotent — a second pass over the same rules
adds nothing, since a tag already present is never appended again — and
it preserves duplicate-freeness of the tag list. -/
theorem applyAutoTags_idempotent (rules : List (String × TagConfig)) (t : Transaction) :
    applyAutoTags rules (applyAutoTags rules t) = applyAutoTags rules t ∧
      (t.tags.Nodup → (applyAutoTags rules t).tags.Nodup) := by
  constructor
  · have hfix : applyTagsAux (strUpper t.description) t.category rules
        (applyTagsAux (strUpper t.description) t.category rules t.tags) =
        applyTagsAux (strUpper t.description) t.category rules t.tags := by
      apply applyTagsAux_fixed
      intro e hmem hf
      exact List.elem_iff.mpr (applyTagsAux_mem _ _ rules t.tags e hmem hf)
    unfold applyAutoTags
    simp only
    rw [hfix]
  · intro hnd
    exact applyTagsAux_nodup _ _ rules t.tags hnd

/-- Auto-tagging rules for the C8 witness. -/
def c8ExRules : List (String × TagConfig) :=
  [("subscription", { keywords := some ["NETFLIX"], categories := some ["Entertainment"] })]

/-- Transaction for the C8 witness. -/
def c8ExTx : Transaction :=
  { date := 0, description := "NETFLIX PAYMENT", amount := 16, category := "Entertainment" }

/-- Witness for C8 at concrete rules and transaction. -/
theorem applyAutoTags_idempotent_witness :
    applyAutoTags c8ExRules (applyAutoTags c8ExRules c8ExTx) = applyAutoTags c8ExRules c8ExTx ∧
      (applyAutoTags c8ExRules c8ExTx).tags.Nodup :=
  ⟨(applyAutoTags_idempotent c8ExRules c8ExTx).1,
   (applyAutoTags_idempotent c8ExRules c8ExTx).2 (by decide)⟩

/-! ### C7: find_missing characterization -/

theorem txnMatchesPattern_iff (r : RecurringTransaction) (t : Transaction) :
    txnMatchesPattern r t = true ↔
      0 < t.amount ∧
        strOccursIn (strUpper r.merchant) (strUpper t.description) = true ∧
        (|⌊(t.date : ℚ) - r.predict_next⌋| : ℚ) ≤ r.interval_days * (1/2) ∧
        |(|t.amount|) - r.average_amount| / r.average_amount ≤ 1/5 := by
  unfold txnMatchesPattern Transaction.is_expense
  simp only [Bool.and_eq_true, decide_eq_true_eq]

/-- C7: a pattern is reported missing exactly when it is due
(`as_of_date ≥ last_date + mean_interval`) and no expense transaction in
the history matches it — merchant key occurring case-insensitively in the
description, date within half a mean interval of the predicted date (whole
days, floor-truncated), amount within 20% relative difference of the mean.
In particular a pattern that is not yet due never appears. -/
theorem find_missing_characterization (ts : List Transaction) (rs : List RecurringTransaction)
    (r : RecurringTransaction) (cur : ℚ) :
    r ∈ find_missing ts rs cur ↔
      r ∈ rs ∧ r.predict_next ≤ cur ∧
        ∀ t ∈ ts, ¬ (0 < t.amount ∧
          strOccursIn (strUpper r.merchant) (strUpper t.description) = true ∧
          (|⌊(t.date : ℚ) - r.predict_next⌋| : ℚ) ≤ r.interval_days * (1/2) ∧
          |(|t.amount|) - r.average_amount| / r.average_amount ≤ 1/5) := by
  unfold find_missing RecurringTransaction.is_due
  rw [List.mem_filter]
  simp only [Bool.and_eq_true, decide_eq_true_eq, Bool.not_eq_true', List.any_eq_false]
  constructor
  · rintro ⟨hmem, hdue, hnone⟩
    refine ⟨hmem, hdue, fun t ht hc => ?_⟩
    exact hnone t ht ((txnMatchesPattern_iff r t).mpr hc)
  · rintro ⟨hmem, hdue, hnone⟩
    refine ⟨hmem, hdue, fun t ht hc => ?_⟩
    exact hnone t ht ((txnMatchesPattern_iff r t).mp hc)

/-! ### C9: malformed explicit config fails fast -/

/-- A rule source is malformed when its text is not parseable or the
mandatory top-level `categories` key is missing. -/
def isMalformed : ConfigSource → Bool
  | .invalidJson _ => true
  | .parsed none _ => true
  | .parsed (some _) _ => false

/-- The error message `_load_config` raises for a malformed source. -/
def configErrorMsg : ConfigSource → String
  | .invalidJson e => "Invalid JSON in config file: " ++ e
  | .parsed _ _ => "Config file must contain a categories key"

/-- C9: when an explicit rule-source file is supplied and malformed,
classifier construction fails with the loader's descriptive error — it
does not silently produce the built-in default classifier. -/
theorem initClassifier_malformed_fails (src : ConfigSource) (priv : Option ConfigSource)
    (h : isMalformed src = true) :
    initClassifier (some src) priv = Except.error (configErrorMsg src) ∧
      initClassifier (some src) priv ≠
        Except.ok { categories := sortCategories defaultCategories, auto_tagging_rules := [] } := by
  cases src with
  | invalidJson msg =>
    exact ⟨rfl, fun hcontra => Except.noConfusion hcontra⟩
  | parsed cats tagging =>
    cases cats with
    | none =>
      exact ⟨rfl, fun hcontra => Except.noConfusion hcontra⟩
    | some cs => simp [isMalformed] at h

/-- Witness for C9 at a concrete unparseable source. -/
theorem initClassifier_malformed_fails_witness :
    initClassifier (some (ConfigSource.invalidJson "line 1")) none =
        Except.error (configErrorMsg (ConfigSource.invalidJson "line 1")) ∧
      initClassifier (some (ConfigSource.invalidJson "line 1")) none ≠
        Except.ok { categories := sortCategories defaultCategories, auto_tagging_rules := [] } :=
  initClassifier_malformed_fails (ConfigSource.invalidJson "line 1") none rfl

/-! ### Detector helper lemmas -/

theorem mem_dedupKeysAux :
    ∀ (l seen : List String) (x : String), x ∈ dedupKeysAux seen l ↔ x ∈ l ∧ x ∉ seen := by
  intro l
  induction l with
  | nil => intro seen x; simp [dedupKeysAux]
  | cons k rest ih =>
    intro seen x
    unfold dedupKeysAux
    by_cases hk : k ∈ seen
    · rw [if_pos hk, ih]
      constructor
      · rintro ⟨hx, hxs⟩
        exact ⟨List.mem_cons_of_mem k hx, hxs⟩
      · rintro ⟨hx, hxs⟩
        rcases List.mem_cons.mp hx with rfl | hx'
        · exact absurd hk hxs
        · exact ⟨hx', hxs⟩
    · rw [if_neg hk]
      constructor
      · intro hx
        rcases List.mem_cons.mp hx with rfl | hx'
        · exact ⟨List.mem_cons_self x rest, hk⟩
        · obtain ⟨h1, h2⟩ := (ih (k :: seen) x).mp hx'
          exact ⟨List.mem_cons_of_mem k h1,
            fun hc => h2 (List.mem_cons_of_mem k hc)⟩
      · rintro ⟨hx, hxs⟩
        rcases List.mem_cons.mp hx with rfl | hx'
        · exact List.mem_cons_self x _
        · by_cases hxk : x = k
          · subst hxk; exact List.mem_cons_self x _
          · exact List.mem_cons_of_mem k ((ih (k :: seen) x).mpr
              ⟨hx', fun hc => by
                rcases List.mem_cons.mp hc with h | h
                · exact hxk h
                · exact hxs h⟩)

theorem dedupKeysAux_nodup :
    ∀ (l seen : List String), (dedupKeysAux seen l).Nodup := by
  intro l
  induction l with
  | nil => intro seen; exact List.nodup_nil
  | cons k rest ih =>
    intro seen
    unfold dedupKeysAux
    by_cases hk : k ∈ seen
    · rw [if_pos hk]; exact ih seen
    · rw [if_neg hk]
      refine List.nodup_cons.mpr ⟨?_, ih (k :: seen)⟩
      intro hc
      exact ((mem_dedupKeysAux rest (k :: seen) k).mp hc).2 (List.mem_cons_self k seen)

theorem merchantKeys_nodup (ts : List Transaction) : (merchantKeys ts).Nodup :=
  dedupKeysAux_nodup _ []

theorem mem_merchantKeys {ts : List Transaction} {m : String} :
    m ∈ merchantKeys ts ↔
      ∃ t ∈ ts, t.is_expense = true ∧ normalizeMerchant t.description = m := by
  unfold merchantKeys
  rw [mem_dedupKeysAux]
  simp only [List.not_mem_nil, not_false_iff, and_true, List.mem_map, List.mem_filter]
  constructor
  · rintro ⟨t, ⟨ht, hexp⟩, hnorm⟩
    exact ⟨t, ht, hexp, hnorm⟩
  · rintro ⟨t, ht, hexp, hnorm⟩
    exact ⟨t, ⟨ht, hexp⟩, hnorm⟩

theorem processGroup_merchant {m : String} {g : List Transaction} {min_occ : Nat} {tol : ℚ}
    {p : RecurringTransaction} (h : processGroup m g min_occ tol = some p) :
    p.merchant = m := by
  unfold processGroup at h
  split at h
  · exact Option.noConfusion h
  split at h
  · exact Option.noConfusion h
  split at h
  · exact Option.noConfusion h
  split at h
  · exact Option.noConfusion h
  rw [← Option.some.inj h]

theorem filterMap_filter_merchant (f : String → Option RecurringTransaction)
    (hf : ∀ k p, f k = some p → p.merchant = k) :
    ∀ (keys : List String), keys.Nodup → ∀ m : String,
      (keys.filterMap f).filter (fun p => p.merchant == m) =
        if m ∈ keys then (f m).toList else [] := by
  intro keys
  induction keys with
  | nil => intro _ m; simp
  | cons k rest ih =>
    intro hnd m
    rw [List.nodup_cons] at hnd
    cases hfk : f k with
    | none =>
      rw [List.filterMap_cons_none hfk, ih hnd.2 m]
      by_cases hmk : m = k
      · subst hmk
        rw [if_neg hnd.1, if_pos (List.mem_cons_self m rest), hfk]
        rfl
      · by_cases hmr : m ∈ rest
        · rw [if_pos hmr, if_pos (List.mem_cons_of_mem k hmr)]
        · rw [if_neg hmr, if_neg (fun hc => by
            rcases List.mem_cons.mp hc with h | h
            · exact hmk h
            · exact hmr h)]
    | some p =>
      rw [List.filterMap_cons_some hfk]
      have hpm : p.merchant = k := hf k p hfk
      by_cases hmk : m = k
      · subst hmk
        have hbeq : (p.merchant == m) = true := beq_iff_eq.mpr hpm
        rw [List.filter_cons, hbeq, if_pos rfl, ih hnd.2 m, if_neg hnd.1,
          if_pos (List.mem_cons_self m rest), hfk]
        rfl
      · have hbeq : (p.merchant == m) = false := by
          rw [hpm]
          exact beq_eq_false_iff_ne.mpr (fun hc => hmk hc.symm)
        rw [List.filter_cons, hbeq, if_neg Bool.false_ne_true, ih hnd.2 m]
        by_cases hmr : m ∈ rest
        · rw [if_pos hmr, if_pos (List.mem_cons_of_mem k hmr)]
        · rw [if_neg hmr, if_neg (fun hc => by
            rcases List.mem_cons.mp hc with h | h
            · exact hmk h
            · exact hmr h)]

theorem detect_filter_merchant (ts : List Transaction) (min_occ : Nat) (tol : ℚ) (m : String) :
    (detect_recurring ts min_occ tol).filter (fun p => p.merchant == m) =
      if m ∈ merchantKeys ts then (processGroup m (groupOf ts m) min_occ tol).toList
      else [] :=
  filterMap_filter_merchant _ (fun _ _ h => processGroup_merchant h)
    (merchantKeys ts) (merchantKeys_nodup ts) m

theorem dateGaps_ne_nil_length {l : List Transaction} (h : dateGaps l ≠ []) :
    2 ≤ l.length := by
  match l with
  | [] => exact absurd rfl h
  | [_] => exact absurd rfl h
  | _ :: _ :: _ => simp

theorem processGroup_some_props {m : String} {g : List Transaction} {min_occ : Nat} {tol : ℚ}
    {p : RecurringTransaction}
    (hexp : ∀ t ∈ g, 0 < t.amount)
    (h : processGroup m g min_occ tol = some p) :
    0 < p.average_amount ∧ 0 < p.interval_days ∧ min_occ ≤ p.count ∧ 2 ≤ p.count := by
  unfold processGroup at h
  split at h
  · exact Option.noConfusion h
  case isFalse hlen =>
  split at h
  · exact Option.noConfusion h
  split at h
  · exact Option.noConfusion h
  case isFalse hne =>
  split at h
  · exact Option.noConfusion h
  obtain rfl : _ = p := Option.some.inj h
  have hints : groupIntervals g ≠ [] := fun hc => hne (by rw [hc]; rfl)
  have hgaps : dateGaps (sortByDate g) ≠ [] := by
    intro hc
    exact hints (by unfold groupIntervals; rw [hc]; rfl)
  have hlen2 : 2 ≤ g.length := by
    have := dateGaps_ne_nil_length hgaps
    rwa [sortByDate, List.length_insertionSort] at this
  have hamts_ne : groupAmounts g ≠ [] := by
    intro hc
    have hlc := congrArg List.length hc
    rw [groupAmounts, List.length_map, sortByDate, List.length_insertionSort,
      List.length_nil] at hlc
    omega
  refine ⟨?_, ?_, ?_, ?_⟩
  · apply div_pos
    · apply List.sum_pos
      · intro x hx
        obtain ⟨t, ht, rfl⟩ := List.mem_map.mp hx
        have ht' : t ∈ g := (List.mem_insertionSort dateLe).mp ht
        exact abs_pos.mpr (ne_of_gt (hexp t ht'))
      · exact hamts_ne
    · have : 0 < (groupAmounts g).length := List.length_pos.mpr hamts_ne
      exact_mod_cast this
  · apply div_pos
    · have hpos : 0 < (groupIntervals g).sum := by
        apply List.sum_pos
        · intro x hx
          have := List.mem_filter.mp hx
          exact of_decide_eq_true this.2
        · exact hints
      exact_mod_cast hpos
    · have : 0 < (groupIntervals g).length := List.length_pos.mpr hints
      exact_mod_cast this
  · exact Nat.le_of_not_lt hlen
  · exact hlen2

/-! ### C10: output invariants of detect_recurring -/

/-- C10: every emitted pattern has a strictly positive mean amount and
mean interval and a count at least `max(min_occurrences, 2)` — so a
one-transaction merchant is never reported even with `min_occurrences ≤ 1`,
and `find_missing`'s relative-amount division on detector output never
divides by zero. -/
theorem detect_recurring_output_invariants (ts : List Transaction) (min_occ : Nat) (tol : ℚ)
    (p : RecurringTransaction) (hp : p ∈ detect_recurring ts min_occ tol) :
    0 < p.average_amount ∧ 0 < p.interval_days ∧ max min_occ 2 ≤ p.count := by
  obtain ⟨k, _, hpg⟩ := List.mem_filterMap.mp hp
  have hexp : ∀ t ∈ groupOf ts k, 0 < t.amount := by
    intro t ht
    have hmf := (List.mem_filter.mp ht).2
    rw [Bool.and_eq_true] at hmf
    exact of_decide_eq_true hmf.1
  obtain ⟨h1, h2, h3, h4⟩ := processGroup_some_props hexp hpg
  exact ⟨h1, h2, Nat.max_le.mpr ⟨h3, h4⟩⟩

/-- The Netflix-style scenario: four identical monthly expenses. -/
def c10ExTs : List Transaction :=
  [{ date := 0, description := "NETFLIX", amount := 16 },
   { date := 30, description := "NETFLIX", amount := 16 },
   { date := 60, description := "NETFLIX", amount := 16 },
   { date := 90, description := "NETFLIX", amount := 16 }]

/-- The pattern detected on `c10ExTs`. -/
def c10ExPat : RecurringTransaction :=
  { merchant := "NETFLIX", average_amount := 16, interval_days := 30,
    last_date := 90, count := 4 }

/-- The default amount tolerance, 10%. -/
def c10Tol : ℚ := 1/10

theorem c10ExAmounts : groupAmounts c10ExTs = [16, 16, 16, 16] := by decide

theorem c10ExIntervals : groupIntervals c10ExTs = [30, 30, 30] := by decide

theorem c10ExSorted : sortByDate c10ExTs = c10ExTs := by decide

theorem c10ExGroup : processGroup "NETFLIX" c10ExTs 3 c10Tol = some c10ExPat := by
  unfold processGroup
  rw [c10ExAmounts, c10ExIntervals, c10ExSorted]
  norm_num [amountVarReject, intervalVarReject, listMax, listMin, List.foldl, lastDate,
    c10ExTs, c10ExPat, c10Tol, max_def, min_def]

theorem c10ExDetect : detect_recurring c10ExTs 3 c10Tol = [c10ExPat] := by
  have hg : processGroup "NETFLIX" (groupOf c10ExTs "NETFLIX") 3 c10Tol = some c10ExPat := by
    rw [show groupOf c10ExTs "NETFLIX" = c10ExTs from by decide]
    exact c10ExGroup
  simp [detect_recurring, show merchantKeys c10ExTs = ["NETFLIX"] from by decide, hg]

/-- Witness for C10 on a concrete detector run. -/
theorem detect_recurring_output_invariants_witness :
    c10ExPat ∈ detect_recurring c10ExTs 3 c10Tol ∧
      0 < c10ExPat.average_amount ∧ 0 < c10ExPat.interval_days ∧
        max 3 2 ≤ c10ExPat.count :=
  ⟨by rw [c10ExDetect]; exact List.mem_singleton.mpr rfl,
   detect_recurring_output_invariants c10ExTs 3 c10Tol c10ExPat
     (by rw [c10ExDetect]; exact List.mem_singleton.mpr rfl)⟩

/-! ### C6: rejection on amount variance -/

/-- C6: a merchant group whose max/min absolute-amount ratio exceeds
`1 + amount_tolerance` contributes no pattern to `detect_recurring`'s
output, however many occurrences it has and however regular its
intervals. -/
theorem detect_recurring_rejects_variance (ts : List Transaction) (min_occ : Nat) (tol : ℚ)
    (m : String)
    (h : 1 + tol < listMax (groupAmounts (groupOf ts m)) / listMin (groupAmounts (groupOf ts m))) :
    (detect_recurring ts min_occ tol).filter (fun p => p.merchant == m) = [] := by
  have hrej : amountVarReject (groupAmounts (groupOf ts m)) tol = true := by
    unfold amountVarReject
    split
    · exact decide_eq_true h
    · rfl
  have hnone : processGroup m (groupOf ts m) min_occ tol = none := by
    unfold processGroup
    rw [hrej]
    simp
  rw [detect_filter_merchant]
  split
  · rw [hnone]; rfl
  · rfl

/-- A merchant whose amounts vary by a factor 2 (beyond 10% tolerance). -/
def c6ExTs : List Transaction :=
  [{ date := 0, description := "GAS STATION", amount := 10 },
   { date := 30, description := "GAS STATION", amount := 20 },
   { date := 60, description := "GAS STATION", amount := 10 }]

theorem c6ExAmounts : groupAmounts (groupOf c6ExTs "GAS STATION") = [10, 20, 10] := by decide

theorem c6ExRatio :
    1 + c10Tol < listMax (groupAmounts (groupOf c6ExTs "GAS STATION")) /
      listMin (groupAmounts (groupOf c6ExTs "GAS STATION")) := by
  rw [c6ExAmounts]
  norm_num [listMax, listMin, List.foldl, max_def, min_def, c10Tol]

/-- Witness for C6: the ratio gate fires and the merchant is absent from
the output. -/
theorem detect_recurring_rejects_variance_witness :
    (1 + c10Tol < listMax (groupAmounts (groupOf c6ExTs "GAS STATION")) /
        listMin (groupAmounts (groupOf c6ExTs "GAS STATION"))) ∧
      (detect_recurring c6ExTs 3 c10Tol).filter (fun p => p.merchant == "GAS STATION") = [] :=
  ⟨c6ExRatio, detect_recurring_rejects_variance c6ExTs 3 c10Tol "GAS STATION" c6ExRatio⟩

/-! ### C5: stable detection of a perfectly constant pattern -/

theorem foldl_max_replicate {α : Type} [LinearOrder α] (k : ℕ) (a : α) :
    List.foldl max a (List.replicate k a) = a := by
  induction k with
  | zero => rfl
  | succ n ih => rw [List.replicate_succ, List.foldl_cons, max_self]; exact ih

theorem foldl_min_replicate {α : Type} [LinearOrder α] (k : ℕ) (a : α) :
    List.foldl min a (List.replicate k a) = a := by
  induction k with
  | zero => rfl
  | succ n ih => rw [List.replicate_succ, List.foldl_cons, min_self]; exact ih

theorem listMax_of_replicate {α : Type} [LinearOrder α] [Inhabited α] {l : List α} {n : ℕ}
    {a : α} (h : l = List.replicate n a) (hn : n ≠ 0) : listMax l = a := by
  obtain ⟨k, rfl⟩ := Nat.exists_eq_succ_of_ne_zero hn
  rw [h, List.replicate_succ]
  exact foldl_max_replicate k a

theorem listMin_of_replicate {α : Type} [LinearOrder α] [Inhabited α] {l : List α} {n : ℕ}
    {a : α} (h : l = List.replicate n a) (hn : n ≠ 0) : listMin l = a := by
  obtain ⟨k, rfl⟩ := Nat.exists_eq_succ_of_ne_zero hn
  rw [h, List.replicate_succ]
  exact foldl_min_replicate k a

theorem amountVarReject_const_false {l : List ℚ} {n : ℕ} {a tol : ℚ}
    (h : l = List.replicate n a) (hn : n ≠ 0) (ha : 0 < a) (htol : 0 ≤ tol) :
    amountVarReject l tol = false := by
  unfold amountVarReject
  rw [listMax_of_replicate h hn, listMin_of_replicate h hn, if_pos ha,
    div_self (ne_of_gt ha)]
  simp only [decide_eq_false_iff_not, not_lt]
  linarith

theorem intervalVarReject_const_false {l : List Int} {n : ℕ} {g : Int}
    (h : l = List.replicate n g) (hn : n ≠ 0) (hg : 0 < g) :
    intervalVarReject l = false := by
  unfold intervalVarReject
  rw [listMax_of_replicate h hn, listMin_of_replicate h hn, if_pos hg,
    div_self (by exact_mod_cast ne_of_gt hg)]
  norm_num

theorem groupAmounts_const {g : List Transaction} {a : ℚ} (ha : 0 ≤ a)
    (h : ∀ t ∈ g, t.amount = a) : groupAmounts g = List.replicate g.length a := by
  have hall : ∀ b ∈ (sortByDate g).map (fun t => |t.amount|), b = a := by
    intro b hb
    obtain ⟨t, ht, rfl⟩ := List.mem_map.mp hb
    rw [h t ((List.mem_insertionSort dateLe).mp ht), abs_of_nonneg ha]
  have hrep := List.eq_replicate_of_mem hall
  rw [List.length_map, sortByDate, List.length_insertionSort] at hrep
  exact hrep

theorem dateGaps_arith :
    ∀ (n : ℕ) (l : List Transaction) (d g : Int),
      l.map (fun t => t.date) = arithProg d g (n + 1) → dateGaps l = List.replicate n g := by
  intro n
  induction n with
  | zero =>
    intro l d g h
    match l with
    | [] => simp [arithProg] at h
    | [_] => rfl
    | _ :: _ :: _ => simp [arithProg] at h
  | succ k ih =>
    intro l d g h
    match l with
    | [] => simp [arithProg] at h
    | [t] =>
      rw [List.map_singleton] at h
      have := congrArg List.length h
      simp [arithProg] at this
    | t1 :: t2 :: r =>
      simp only [List.map_cons, arithProg] at h
      obtain ⟨h1, h2⟩ := List.cons.inj h
      obtain ⟨h2a, h2b⟩ := List.cons.inj h2
      have hrest : (t2 :: r).map (fun t => t.date) = arithProg (d + g) g (k + 1) := by
        rw [List.map_cons, h2a, h2b]
        rfl
      rw [show dateGaps (t1 :: t2 :: r) = (t2.date - t1.date) :: dateGaps (t2 :: r) from rfl,
        ih (t2 :: r) (d + g) g hrest, h1, h2a, List.replicate_succ]
      congr 1
      omega

theorem lastDate_arith :
    ∀ (n : ℕ) (l : List Transaction) (d g : Int),
      l.map (fun t => t.date) = arithProg d g (n + 1) → lastDate l = d + n * g := by
  intro n
  induction n with
  | zero =>
    intro l d g h
    match l with
    | [] => simp [arithProg] at h
    | [t] =>
      simp only [List.map_singleton, arithProg] at h
      obtain ⟨h1, _⟩ := List.cons.inj h
      unfold lastDate
      simp [h1]
    | _ :: _ :: _ => simp [arithProg] at h
  | succ k ih =>
    intro l d g h
    match l with
    | [] => simp [arithProg] at h
    | [t] =>
      have := congrArg List.length h
      simp [arithProg] at this
    | t1 :: t2 :: r =>
      simp only [List.map_cons, arithProg] at h
      obtain ⟨h1, h2⟩ := List.cons.inj h
      obtain ⟨h2a, h2b⟩ := List.cons.inj h2
      have hrest : (t2 :: r).map (fun t => t.date) = arithProg (d + g) g (k + 1) := by
        rw [List.map_cons, h2a, h2b]
        rfl
      have hlast : lastDate (t1 :: t2 :: r) = lastDate (t2 :: r) := by
        unfold lastDate
        rw [List.getLast?_cons_cons]
      rw [hlast, ih (t2 :: r) (d + g) g hrest]
      push_cast
      ring

theorem sum_replicate_div {n : ℕ} {a : ℚ} (hn : n ≠ 0) :
    (List.replicate n a).sum / ((List.replicate n a).length : ℚ) = a := by
  rw [List.sum_replicate, List.length_replicate, nsmul_eq_mul]
  exact mul_div_cancel_left₀ a (Nat.cast_ne_zero.mpr hn)

theorem sum_replicate_int_div {n : ℕ} {g : Int} (hn : n ≠ 0) :
    (((List.replicate n g).sum : ℤ) : ℚ) / ((List.replicate n g).length : ℚ) = (g : ℚ) := by
  rw [List.sum_replicate, List.length_replicate, nsmul_eq_mul]
  push_cast
  exact mul_div_cancel_left₀ _ (Nat.cast_ne_zero.mpr hn)

/-- C5: a merchant with exactly `min_occurrences` expense transactions of
one constant positive amount, dated at one constant positive day gap,
yields exactly one detected pattern for that merchant: mean amount the
constant, mean interval the gap, last date the latest date, count
`min_occurrences`. -/
theorem detect_recurring_constant_pattern (ts : List Transaction) (min_occ : Nat) (tol : ℚ)
    (m : String) (a : ℚ) (d g : Int)
    (hlen : (groupOf ts m).length = min_occ)
    (hmin : 2 ≤ min_occ)
    (hamt : ∀ t ∈ groupOf ts m, t.amount = a)
    (ha : 0 < a) (htol : 0 ≤ tol) (hg : 0 < g)
    (hdates : (sortByDate (groupOf ts m)).map (fun t => t.date) = arithProg d g min_occ) :
    (detect_recurring ts min_occ tol).filter (fun p => p.merchant == m) =
      [{ merchant := m, average_amount := a, interval_days := (g : ℚ),
         last_date := d + ((min_occ : ℤ) - 1) * g, count := min_occ }] := by
  obtain ⟨k, rfl⟩ : ∃ k, min_occ = k + 2 := ⟨min_occ - 2, by omega⟩
  have hGA : groupAmounts (groupOf ts m) = List.replicate (k + 2) a := by
    rw [groupAmounts_const (le_of_lt ha) hamt, hlen]
  have hgaps : dateGaps (sortByDate (groupOf ts m)) = List.replicate (k + 1) g :=
    dateGaps_arith (k + 1) (sortByDate (groupOf ts m)) d g hdates
  have hGI : groupIntervals (groupOf ts m) = List.replicate (k + 1) g := by
    unfold groupIntervals
    rw [hgaps, List.filter_replicate]
    simp [hg]
  have hlast : lastDate (sortByDate (groupOf ts m)) = d + (k + 1) * g :=
    lastDate_arith (k + 1) (sortByDate (groupOf ts m)) d g hdates
  have hprocess : processGroup m (groupOf ts m) (k + 2) tol =
      some { merchant := m, average_amount := a, interval_days := (g : ℚ),
             last_date := d + (((k + 2 : ℕ) : ℤ) - 1) * g, count := k + 2 } := by
    unfold processGroup
    rw [if_neg (by omega : ¬ (groupOf ts m).length < k + 2)]
    rw [amountVarReject_const_false hGA (Nat.succ_ne_zero (k + 1)) ha htol]
    rw [if_neg Bool.false_ne_true]
    have hne : (groupIntervals (groupOf ts m)).isEmpty ≠ true := by
      rw [hGI]
      simp [List.replicate_succ]
    rw [if_neg hne]
    rw [intervalVarReject_const_false hGI (Nat.succ_ne_zero k) hg]
    rw [if_neg Bool.false_ne_true]
    rw [hGA, hGI, hlast, hlen]
    rw [sum_replicate_div (Nat.succ_ne_zero (k + 1)), sum_replicate_int_div (Nat.succ_ne_zero k)]
    congr 1
    have hcast : (((k + 2 : ℕ) : ℤ) - 1) = (k + 1 : ℤ) := by push_cast; ring
    rw [hcast]
  have hGne : groupOf ts m ≠ [] := by
    intro hc
    rw [hc] at hlen
    simp at hlen
  obtain ⟨t, ht⟩ := List.exists_mem_of_ne_nil (groupOf ts m) hGne
  have hmf := List.mem_filter.mp ht
  rw [Bool.and_eq_true] at hmf
  have hmem : m ∈ merchantKeys ts :=
    mem_merchantKeys.mpr ⟨t, hmf.1, hmf.2.1, beq_iff_eq.mp hmf.2.2⟩
  rw [detect_filter_merchant, if_pos hmem, hprocess]
  rfl

/-- Witness for C5: the Netflix scenario with `min_occurrences = 4`. -/
theorem detect_recurring_constant_pattern_witness :
    (detect_recurring c10ExTs 4 c10Tol).filter (fun p => p.merchant == "NETFLIX") =
      [{ merchant := "NETFLIX", average_amount := 16, interval_days := ((30 : ℤ) : ℚ),
         last_date := 90, count := 4 }] :=
  detect_recurring_constant_pattern c10ExTs 4 c10Tol "NETFLIX" 16 0 30
    (by decide) (by decide) (by decide) (by decide) (by norm_num [c10Tol]) (by decide)
    (by decide)
